import Mathlib

/-!
# Verification of the metadata-calculator helpers

Shallow embedding of `core/lib/zksync_core/src/metadata_calculator/helpers.rs`:
the deduplicating batch-log loader (`L1BatchWithLogs::new` and its naive
reference `L1BatchWithLogs::slow`), the async tree handle (`AsyncTree`) with
its poisoning-on-cancellation semantics, the idle-wait policy (`Delayer`) and
the health snapshot (`TreeHealthCheckDetails`).

Modelling conventions:
* `StorageKey` is identified with its stable hash (`hashed_key`); per the
  spec the hash is both the tree's leaf key and the log store's lookup key,
  and the deterministic order of flattened log lists is ascending key hash.
  Both `H256` values and hashes are modelled as `Nat`; `H256::zero()` is `0`.
* Rust `BTreeMap<StorageKey, StorageLog>` is modelled as a list of
  `StorageLog` kept sorted by strictly ascending key (`insertLog` both
  inserts and overwrites, like `BTreeMap::insert`).
* DAL fetches are fallible (`Except DbError`); Rust panics inside the loader
  (`unwrap`, `assert_eq!`) are modelled as `Except.error` as well.
* Blocking-pool offloading (`spawn_blocking`) and `mem::take`-based ownership
  transfer are modelled by explicit state passing on `AsyncTree`; a Rust
  panic on a poisoned handle is the `none` result.
-/

/-- L1 batch numbers (`L1BatchNumber`). -/
abbrev L1BatchNumber := Nat

/-- Modelled from the spec: a storage key is identified with its stable hash
(`StorageKey` lives outside `src/`); the hash is used both as the tree's leaf
key and as the log store's lookup key, and it is the sort key of flattened
log lists. -/
abbrev StorageKey := Nat

/-- 256-bit values (`H256`), modelled as `Nat`; `H256::zero()` is `0`. -/
abbrev H256 := Nat

/-- `StorageKey::hashed_key`. With keys identified with their hashes this is
the identity, but it is kept explicit to mirror every `hashed_key()` call
site of the source. -/
def StorageKey.hashedKey (k : StorageKey) : StorageKey := k

/-- `StorageLogKind` from `zksync_types`. -/
inductive StorageLogKind where
  | Read
  | Write
deriving DecidableEq, Repr

/-- `StorageLog` from `zksync_types`: {kind, key, value}. -/
structure StorageLog where
  kind : StorageLogKind
  key : StorageKey
  value : H256
deriving DecidableEq, Repr

/-- `StorageLog::new_read_log`. -/
def StorageLog.newReadLog (key : StorageKey) (value : H256) : StorageLog :=
  ⟨.Read, key, value⟩

/-- `StorageLog::new_write_log`. -/
def StorageLog.newWriteLog (key : StorageKey) (value : H256) : StorageLog :=
  ⟨.Write, key, value⟩

/-- The touched-slots map (`HashMap<StorageKey, H256>`) as an association
list; the DAL returns it with pairwise distinct keys. -/
abbrev SlotMap := List (StorageKey × H256)

/-- Lookup in a `SlotMap` (`HashMap::get`). -/
def lookupSlot (k : StorageKey) : SlotMap → Option H256
  | [] => none
  | p :: ps => if p.1 = k then some p.2 else lookupSlot k ps

/-- Removal from a `SlotMap` (`HashMap::remove`, called as
`touched_slots.remove(&storage_key)`). -/
def removeSlot (k : StorageKey) (m : SlotMap) : SlotMap :=
  m.filter fun p => p.1 != k

/-- The `BTreeMap<StorageKey, StorageLog>` accumulating loader output,
modelled as a list of logs sorted by strictly ascending key.
`insertLog` is `BTreeMap::insert`: it places the log at its key's sorted
position, replacing an existing log with the same key. -/
def insertLog (log : StorageLog) : List StorageLog → List StorageLog
  | [] => [log]
  | l :: ls =>
    if log.key < l.key then log :: l :: ls
    else if log.key = l.key then log :: ls
    else l :: insertLog log ls

/-- Lookup by key in a log list (`BTreeMap::get`). -/
def lookupLog (k : StorageKey) : List StorageLog → Option StorageLog
  | [] => none
  | log :: logs => if log.key = k then some log else lookupLog k logs

/-- The invariant of the loader's `BTreeMap`: keys strictly ascending. This
is also the deterministic total order of the flattened output. -/
def LogsSorted (logs : List StorageLog) : Prop :=
  logs.Pairwise fun a b => a.key < b.key

/-- A database / log-store failure (`sqlx` error or a panic inside the DAL),
identified by an opaque code. -/
abbrev DbError := Nat

/-- `L1BatchHeader`: per-batch metadata; only the fields the spec names
(number, timestamp) are modelled, the rest is opaque to this core. -/
structure L1BatchHeader where
  number : L1BatchNumber
  timestamp : Nat
deriving DecidableEq, Repr

/-- The log-store collaborator (`StorageProcessor` with its DALs), specified
at its interface: each fetch may fail fatally. -/
structure Storage where
  /-- `blocks_dal().get_l1_batch_header(n)`: `none` when the header does not
  exist yet. -/
  getL1BatchHeader : L1BatchNumber → Except DbError (Option L1BatchHeader)
  /-- `storage_logs_dedup_dal().get_protective_reads_for_l1_batch(n)`. -/
  getProtectiveReads : L1BatchNumber → Except DbError (List StorageKey)
  /-- `storage_logs_dal().get_touched_slots_for_l1_batch(n)`. -/
  getTouchedSlots : L1BatchNumber → Except DbError SlotMap
  /-- `storage_logs_dal().get_l1_batches_for_initial_writes(keys)`: for each
  requested hashed key, the L1 batch of the key's first-ever write. -/
  getL1BatchesForInitialWrites :
    List StorageKey → Except DbError (StorageKey → Option L1BatchNumber)
  /-- `storage_logs_dal().get_previous_storage_values(keys, n)`: for each
  requested hashed key, the value before batch `n` (`none` = never written). -/
  getPreviousStorageValues :
    List StorageKey → L1BatchNumber → Except DbError (StorageKey → Option H256)

/-- `L1BatchWithLogs`: {header, flattened ordered log list}. -/
structure L1BatchWithLogs where
  header : L1BatchHeader
  storageLogs : List StorageLog
deriving DecidableEq, Repr

/-- The loader's first loop: for every protective-read key, remove it from
`touched_slots` and insert a read log with zero value into `storage_logs`. -/
def applyProtectiveReads (protectiveReads : List StorageKey)
    (st : SlotMap × List StorageLog) : SlotMap × List StorageLog :=
  protectiveReads.foldl
    (fun st k => (removeSlot k st.1, insertLog (StorageLog.newReadLog k 0) st.2))
    st

/-- `hashed_keys_for_zero_values`: the hashed keys of the touched slots whose
final value is zero (computed on the map already made disjoint with
protective reads). -/
def zeroValueHashedKeys (touchedSlots : SlotMap) : List StorageKey :=
  touchedSlots.filterMap fun p =>
    if p.2 = 0 then some (StorageKey.hashedKey p.1) else none

/-- `write_matters` from the loader's second loop: a zero value is written
only when the key's initial write is recorded at a batch `<= l1_batch_number`;
a non-zero value is always written. -/
def writeMatters (l1BatchesForInitialWrites : StorageKey → Option L1BatchNumber)
    (l1BatchNumber : L1BatchNumber) (key : StorageKey) (value : H256) : Bool :=
  if value = 0 then
    match l1BatchesForInitialWrites (StorageKey.hashedKey key) with
    | some number => decide (number ≤ l1BatchNumber)
    | none => false
  else true

/-- The loader's second loop: for every remaining touched slot whose write
matters, insert a write log into `storage_logs`. -/
def applyTouchedSlots (touchedSlots : SlotMap)
    (l1BatchesForInitialWrites : StorageKey → Option L1BatchNumber)
    (l1BatchNumber : L1BatchNumber) (logs : List StorageLog) : List StorageLog :=
  touchedSlots.foldl
    (fun logs p =>
      if writeMatters l1BatchesForInitialWrites l1BatchNumber p.1 p.2 then
        insertLog (StorageLog.newWriteLog p.1 p.2) logs
      else logs)
    logs

/-- The pure core of `L1BatchWithLogs::new`, given the already-fetched
protective reads, touched slots and initial-write map: the flattened ordered
log list. -/
def newStorageLogs (protectiveReads : List StorageKey) (touchedSlots : SlotMap)
    (l1BatchesForInitialWrites : StorageKey → Option L1BatchNumber)
    (l1BatchNumber : L1BatchNumber) : List StorageLog :=
  let st := applyProtectiveReads protectiveReads (touchedSlots, [])
  applyTouchedSlots st.1 l1BatchesForInitialWrites l1BatchNumber st.2

/-- `L1BatchWithLogs::new`: the optimized loader. Returns `ok none` when the
header is absent; propagates any DAL failure. -/
def L1BatchWithLogs.new (storage : Storage) (l1BatchNumber : L1BatchNumber) :
    Except DbError (Option L1BatchWithLogs) := do
  let headerOpt ← storage.getL1BatchHeader l1BatchNumber
  match headerOpt with
  | none => pure none
  | some header => do
    let protectiveReads ← storage.getProtectiveReads l1BatchNumber
    let touchedSlots ← storage.getTouchedSlots l1BatchNumber
    let st := applyProtectiveReads protectiveReads (touchedSlots, [])
    let l1BatchesForInitialWrites ←
      storage.getL1BatchesForInitialWrites (zeroValueHashedKeys st.1)
    pure (some
      { header
        storageLogs := applyTouchedSlots st.1 l1BatchesForInitialWrites l1BatchNumber st.2 })

/-- Failures of the naive reference loader `L1BatchWithLogs::slow`: a
propagated DAL failure, or its `assert_eq!` panic "Value was changed for slot
that requires protective read". -/
inductive SlowError where
  | db (e : DbError)
  | valueChangedForProtectiveRead (key : StorageKey)
deriving DecidableEq, Repr

/-- Lifts a DAL result into `slow`'s error type. -/
def liftDal {α : Type} (r : Except DbError α) : Except SlowError α :=
  match r with
  | .ok a => .ok a
  | .error e => .error (.db e)

/-- The hashed keys queried by `slow` for previous values:
`protective_reads.iter().chain(touched_slots.keys()).map(hashed_key)`. -/
def slowHashedKeys (protectiveReads : List StorageKey) (touchedSlots : SlotMap) :
    List StorageKey :=
  (protectiveReads ++ touchedSlots.map Prod.fst).map StorageKey.hashedKey

/-- `slow`'s first loop: insert a read log carrying the previous value for
every protective-read key, after the sanity check that a touched value for
such a key equals its previous value (`assert_eq!`, modelled as an error). -/
def slowReadLogs (protectiveReads : List StorageKey) (touchedSlots : SlotMap)
    (previousValues : StorageKey → Option H256) (logs : List StorageLog) :
    Except SlowError (List StorageLog) :=
  match protectiveReads with
  | [] => .ok logs
  | k :: rest =>
    let previousValue := (previousValues (StorageKey.hashedKey k)).getD 0
    match lookupSlot k touchedSlots with
    | some value =>
      if previousValue = value then
        slowReadLogs rest touchedSlots previousValues
          (insertLog (StorageLog.newReadLog k previousValue) logs)
      else .error (.valueChangedForProtectiveRead k)
    | none =>
      slowReadLogs rest touchedSlots previousValues
        (insertLog (StorageLog.newReadLog k previousValue) logs)

/-- `slow`'s second loop: insert a write log for every touched slot whose
value differs from its previous value. -/
def slowWriteLogs (touchedSlots : SlotMap)
    (previousValues : StorageKey → Option H256) (logs : List StorageLog) :
    List StorageLog :=
  touchedSlots.foldl
    (fun logs p =>
      let previousValue := (previousValues (StorageKey.hashedKey p.1)).getD 0
      if previousValue ≠ p.2 then insertLog (StorageLog.newWriteLog p.1 p.2) logs
      else logs)
    logs

/-- `L1BatchWithLogs::slow`: the naive reference loader from the test module,
which fetches the previous value of every protective-read and touched-slot
key and emits a Read/Write entry by comparing with it. -/
def L1BatchWithLogs.slow (storage : Storage) (l1BatchNumber : L1BatchNumber) :
    Except SlowError (Option L1BatchWithLogs) := do
  let headerOpt ← liftDal (storage.getL1BatchHeader l1BatchNumber)
  match headerOpt with
  | none => pure none
  | some header => do
    let protectiveReads ← liftDal (storage.getProtectiveReads l1BatchNumber)
    let touchedSlots ← liftDal (storage.getTouchedSlots l1BatchNumber)
    let previousValues ← liftDal (storage.getPreviousStorageValues
      (slowHashedKeys protectiveReads touchedSlots) l1BatchNumber)
    let readLogs ← slowReadLogs protectiveReads touchedSlots previousValues []
    pure (some
      { header
        storageLogs := slowWriteLogs touchedSlots previousValues readLogs })

/-- A leaf of the Merkle tree: its value and its allocated enumeration
index. -/
structure Leaf where
  value : H256
  index : Nat
deriving DecidableEq, Repr

/-- Lookup in the tree's leaf store. -/
def lookupLeaf (k : StorageKey) : List (StorageKey × Leaf) → Option Leaf
  | [] => none
  | p :: ps => if p.1 = k then some p.2 else lookupLeaf k ps

/-- Modelled from the spec: `ZkSyncTree` (crate `zksync_merkle_tree`, outside
`src/`). The tree is a Merkle-hashed key-value index: leaf indices are
allocated monotonically and only for the first genuine write of a key, and
the root hash is a pure deterministic function of the leaf map. The root
hash is abstracted as the leaf map itself (an injective function of it). -/
structure ZkSyncTree where
  leaves : List (StorageKey × Leaf)
  nextEnumerationIndex : Nat
  nextL1BatchNumber : L1BatchNumber
deriving DecidableEq, Repr

/-- The abstract root hash: the full leaf map. -/
abbrev RootHash := List (StorageKey × Leaf)

/-- `ZkSyncTree::root_hash`, abstractly. -/
def ZkSyncTree.rootHash (t : ZkSyncTree) : RootHash := t.leaves

/-- `ZkSyncTree::is_empty`. -/
def ZkSyncTree.isEmpty (t : ZkSyncTree) : Bool := t.leaves.isEmpty

/-- The value of a key in the tree, defaulting to zero for absent keys
(an untouched slot reads as zero). -/
def treeValueD (t : ZkSyncTree) (k : StorageKey) : H256 :=
  ((lookupLeaf k t.leaves).map Leaf.value).getD 0

/-- A Merkle path of the batch witness, abstracted as the data it proves:
the key with its current value (for a read) or its old and new values (for a
write). No path is produced for a same-value write, which per the source is
a no-op on the tree side. -/
inductive WitnessEntry where
  | read (key : StorageKey) (currentValue : H256)
  | write (key : StorageKey) (previousValue newValue : H256)
deriving DecidableEq, Repr

/-- Modelled from the spec: `TreeMetadata` (crate `zksync_merkle_tree`) —
{new root hash, last allocated leaf index, initial-write allocations,
repeated-write allocations, witness paths}. -/
structure TreeMetadata where
  rootHash : RootHash
  rollupLastLeafIndex : Nat
  initialWrites : List (StorageKey × H256)
  repeatedWrites : List (StorageKey × H256)
  witness : List WitnessEntry
deriving DecidableEq, Repr

/-- The evolving state while a batch's logs are applied to the tree. -/
structure TreeProcessingState where
  tree : ZkSyncTree
  initialWrites : List (StorageKey × H256)
  repeatedWrites : List (StorageKey × H256)
  witness : List WitnessEntry
deriving DecidableEq, Repr

/-- Replaces the value of key `k` (keeping its index). -/
def updateLeaf (ls : List (StorageKey × Leaf)) (k : StorageKey) (v : H256) :
    List (StorageKey × Leaf) :=
  ls.map fun p => if p.1 = k then (p.1, ⟨v, p.2.index⟩) else p

/-- Modelled from the spec: applying one storage log to the tree. A read
leaves the tree unchanged and contributes a witness path for the key's
current value (the log's value field is ignored by the tree). A write to an
absent key allocates the next leaf index (an initial write); a write to a
present key with a different value updates it in place (a repeated write); a
write of the value already stored is a no-op with no allocation, no metadata
entry and no witness path. -/
def treeStep (st : TreeProcessingState) (log : StorageLog) : TreeProcessingState :=
  match log.kind with
  | .Read =>
    let current := treeValueD st.tree log.key
    { st with witness := st.witness ++ [.read log.key current] }
  | .Write =>
    match lookupLeaf log.key st.tree.leaves with
    | none =>
      let idx := st.tree.nextEnumerationIndex
      { st with
        tree := { st.tree with
          leaves := st.tree.leaves ++ [(log.key, ⟨log.value, idx⟩)]
          nextEnumerationIndex := idx + 1 }
        initialWrites := st.initialWrites ++ [(log.key, log.value)]
        witness := st.witness ++ [.write log.key 0 log.value] }
    | some leaf =>
      if leaf.value = log.value then st
      else
        { st with
          tree := { st.tree with leaves := updateLeaf st.tree.leaves log.key log.value }
          repeatedWrites := st.repeatedWrites ++ [(log.key, log.value)]
          witness := st.witness ++ [.write log.key leaf.value log.value] }

/-- Modelled from the spec: `ZkSyncTree::process_l1_batch` — applies the
ordered log list, advances the next batch number, and returns the metadata
{root hash, last leaf index, initial writes, repeated writes, witness}. -/
def ZkSyncTree.processL1Batch (t : ZkSyncTree) (storageLogs : List StorageLog) :
    ZkSyncTree × TreeMetadata :=
  let st := storageLogs.foldl treeStep ⟨t, [], [], []⟩
  let finalTree := { st.tree with nextL1BatchNumber := st.tree.nextL1BatchNumber + 1 }
  (finalTree,
    { rootHash := finalTree.rootHash
      rollupLastLeafIndex := finalTree.nextEnumerationIndex
      initialWrites := st.initialWrites
      repeatedWrites := st.repeatedWrites
      witness := st.witness })

/-- Modelled from the spec: `ZkSyncTree::save` flushes the in-memory state to
the backing store; the in-memory tree itself is unchanged (persistence is
external to this core). -/
def ZkSyncTree.save (t : ZkSyncTree) : ZkSyncTree := t

/-- Modelled from the spec: `ZkSyncTree::revert_logs` rewinds so that the
next batch is `last_l1_batch_to_keep + 1`; rolling the leaves back is done by
the backing store's versioning, outside this core. -/
def ZkSyncTree.revertLogs (t : ZkSyncTree) (lastL1BatchToKeep : L1BatchNumber) :
    ZkSyncTree :=
  { t with nextL1BatchNumber := lastL1BatchToKeep + 1 }

/-- `AsyncTree`: the handle that owns at most one `ZkSyncTree`. `inner =
none` is the handle-less (poisoned) state left behind by `mem::take` when a
blocking future is cancelled; `#[derive(Default)]` makes that the default
state. -/
structure AsyncTree where
  inner : Option ZkSyncTree
deriving DecidableEq, Repr

instance : Inhabited AsyncTree := ⟨⟨none⟩⟩

/-- `mem::take(self)`: returns the owned state and leaves the default
(handle-less) state in the slot. If the offloaded blocking call is cancelled
mid-flight, the slot stays in this second component forever. -/
def AsyncTree.memTake (h : AsyncTree) : AsyncTree × AsyncTree :=
  (h, ⟨none⟩)

/-- `AsyncTree::is_empty`; `none` is the "`ZkSyncTree` is in inconsistent
state" panic of `as_ref` on a handle-less tree. -/
def AsyncTree.isEmpty (h : AsyncTree) : Option Bool :=
  h.inner.map ZkSyncTree.isEmpty

/-- `AsyncTree::next_l1_batch_number`; `none` is the inconsistent-state
panic. -/
def AsyncTree.nextL1BatchNumber (h : AsyncTree) : Option L1BatchNumber :=
  h.inner.map ZkSyncTree.nextL1BatchNumber

/-- `AsyncTree::root_hash`; `none` is the inconsistent-state panic. -/
def AsyncTree.rootHash (h : AsyncTree) : Option RootHash :=
  h.inner.map ZkSyncTree.rootHash

/-- `AsyncTree::process_l1_batch`: takes the tree out of the handle, applies
the batch in the blocking pool, and puts the tree back on completion. `none`
is the inconsistent-state panic (`as_mut` on a handle-less tree). -/
def AsyncTree.processL1Batch (h : AsyncTree) (storageLogs : List StorageLog) :
    Option (AsyncTree × TreeMetadata) :=
  match (AsyncTree.memTake h).1.inner with
  | none => none
  | some tree =>
    let r := tree.processL1Batch storageLogs
    some (⟨some r.1⟩, r.2)

/-- `AsyncTree::save`: takes the tree out, saves in the blocking pool, puts
it back. `none` is the inconsistent-state panic. -/
def AsyncTree.save (h : AsyncTree) : Option AsyncTree :=
  match (AsyncTree.memTake h).1.inner with
  | none => none
  | some tree => some ⟨some tree.save⟩

/-- `AsyncTree::revert_logs`. `none` is the inconsistent-state panic. -/
def AsyncTree.revertLogs (h : AsyncTree) (lastL1BatchToKeep : L1BatchNumber) :
    Option AsyncTree :=
  h.inner.map fun tree => ⟨some (tree.revertLogs lastL1BatchToKeep)⟩

/-- `MerkleTreeMode` from `zksync_config`: full (with witnesses) or
lightweight. -/
inductive MerkleTreeMode where
  | Full
  | Lightweight
deriving DecidableEq, Repr

/-- `TreeHealthCheckDetails`: the diagnostic payload of the tree's health
snapshot. -/
structure TreeHealthCheckDetails where
  mode : MerkleTreeMode
  nextL1BatchToSeal : L1BatchNumber
deriving DecidableEq, Repr

/-- Modelled from the spec: `HealthStatus` (crate `zksync_health_check`);
only readiness is relevant here, but a distinct non-ready status exists. -/
inductive HealthStatus where
  | Ready
  | NotReady
deriving DecidableEq, Repr

/-- Modelled from the spec: `Health` (crate `zksync_health_check`) — a status
with an optional diagnostic payload. -/
structure Health where
  status : HealthStatus
  details : Option TreeHealthCheckDetails
deriving DecidableEq, Repr

/-- `Health::from(status)`. -/
def Health.ofStatus (s : HealthStatus) : Health := ⟨s, none⟩

/-- `Health::with_details`. -/
def Health.withDetails (h : Health) (d : TreeHealthCheckDetails) : Health :=
  { h with details := some d }

/-- `impl From<TreeHealthCheckDetails> for Health`:
`Health::from(HealthStatus::Ready).with_details(details)`. -/
def TreeHealthCheckDetails.toHealth (d : TreeHealthCheckDetails) : Health :=
  (Health.ofStatus .Ready).withDetails d

/-- `Delayer`: the idle-wait policy, configured with the delay interval (in
milliseconds). The test-only notifier channel is modelled through the effect
trace of `wait`. -/
structure Delayer where
  delayInterval : Nat
deriving DecidableEq, Repr

/-- The observable effects of `Delayer::wait`: publishing the observation
`(next_l1_batch_number, root_hash)` to the registered observer, and the
timed suspension itself. -/
inductive WaitEffect where
  | notify (nextL1BatchNumber : L1BatchNumber) (rootHash : RootHash)
  | sleep (interval : Nat)
deriving DecidableEq, Repr

/-- `Delayer::wait`: eagerly sends `(tree.next_l1_batch_number(),
tree.root_hash())` to the notifier, then returns the
`tokio::time::sleep(delay_interval)` future. `none` is the
inconsistent-state panic of the tree accessors on a poisoned handle. -/
def Delayer.wait (d : Delayer) (tree : AsyncTree) : Option (List WaitEffect) :=
  match tree.nextL1BatchNumber, tree.rootHash with
  | some n, some r => some [.notify n r, .sleep d.delayInterval]
  | _, _ => none

/-- The accumulating fold of `slow`'s first loop once every sanity check
passes: insert a read log carrying the previous value for every
protective-read key. -/
def slowReadFold (protectiveReads : List StorageKey)
    (previousValues : StorageKey → Option H256) (logs : List StorageLog) :
    List StorageLog :=
  protectiveReads.foldl
    (fun logs k =>
      insertLog (StorageLog.newReadLog k ((previousValues (StorageKey.hashedKey k)).getD 0)) logs)
    logs

/-- A write log that is a no-op on the tree: its key already stores exactly
the written value, so no allocation, metadata entry or witness path is
produced for it. -/
def TreeNoopWrite (t : ZkSyncTree) (log : StorageLog) : Prop :=
  log.kind = .Write ∧
    ∃ leaf, lookupLeaf log.key t.leaves = some leaf ∧ leaf.value = log.value

/-- Two logs with the same effect on the tree: same key, and either both
reads (whose value fields the tree ignores) or both writes of the same
value. -/
def SameTreeEffect (a b : StorageLog) : Prop :=
  a.key = b.key ∧
    ((a.kind = .Read ∧ b.kind = .Read) ∨
      (a.kind = .Write ∧ b.kind = .Write ∧ a.value = b.value))

/-- Simulation between two ordered log lists over a starting tree `t`: the
left list may carry extra writes that are no-ops on `t`, and matched entries
have the same tree effect. -/
inductive LogListSim (t : ZkSyncTree) : List StorageLog → List StorageLog → Prop where
  | nil : LogListSim t [] []
  | skip {log : StorageLog} {l₁ l₂ : List StorageLog} :
      TreeNoopWrite t log → LogListSim t l₁ l₂ → LogListSim t (log :: l₁) l₂
  | cons {a b : StorageLog} {l₁ l₂ : List StorageLog} :
      SameTreeEffect a b → LogListSim t l₁ l₂ → LogListSim t (a :: l₁) (b :: l₂)

/-- The pointwise relation between the per-key entries of the two loaders'
maps: equal tree effect where both are defined, a no-op write where only the
optimized loader has an entry, and never an entry only on the slow side. -/
def KeyRel (t : ZkSyncTree) : Option StorageLog → Option StorageLog → Prop
  | none, none => True
  | some a, some b => SameTreeEffect a b
  | some a, none => TreeNoopWrite t a
  | none, some _ => False

/-- The upstream deduplication contract of the log store, relating one
batch's protective reads, touched slots, initial-write records and
previous-value query to the tree state `t₀` before the batch: previous
values mirror the tree; protective-read keys did not change; a zero-valued
touched slot of a key present in the tree has an initial write at or before
this batch, and one absent from the tree has none. -/
structure DedupContract (t₀ : ZkSyncTree) (protectiveReads : List StorageKey)
    (touchedSlots : SlotMap) (iw : StorageKey → Option L1BatchNumber)
    (prev : StorageKey → Option H256) (n : L1BatchNumber) : Prop where
  previousMatchesTree : ∀ k, k ∈ protectiveReads ∨ k ∈ touchedSlots.map Prod.fst →
    (prev (StorageKey.hashedKey k)).getD 0 = treeValueD t₀ k
  protectiveReadsUnchanged : ∀ k, k ∈ protectiveReads →
    ∀ v, lookupSlot k touchedSlots = some v → treeValueD t₀ k = v
  initialWriteOfPresent : ∀ k, k ∉ protectiveReads →
    lookupSlot k touchedSlots = some 0 → (lookupLeaf k t₀.leaves).isSome →
    ∃ b, iw (StorageKey.hashedKey k) = some b ∧ b ≤ n
  initialWriteOfAbsent : ∀ k, k ∉ protectiveReads →
    lookupSlot k touchedSlots = some 0 → lookupLeaf k t₀.leaves = none →
    ∀ b, iw (StorageKey.hashedKey k) = some b → n < b

/-- A sample log store used to exercise the theorems on concrete inputs. -/
def sampleStorage : Storage where
  getL1BatchHeader := fun n => .ok (some ⟨n, 100⟩)
  getProtectiveReads := fun _ => .ok [5]
  getTouchedSlots := fun _ => .ok []
  getL1BatchesForInitialWrites := fun _ => .ok fun _ => none
  getPreviousStorageValues := fun _ _ => .ok fun _ => none

/-- A sample log store whose batch headers do not exist yet. -/
def sampleStorageHeaderMissing : Storage :=
  { sampleStorage with getL1BatchHeader := fun _ => .ok none }

/-- A sample log store whose header fetch fails. -/
def sampleStorageFailingHeader : Storage :=
  { sampleStorage with getL1BatchHeader := fun _ => .error 7 }

/-- A sample log store with protective reads and touched slots overlapping:
key 5 is protective and touched with value 8, key 2 is touched with value 3,
key 4 is touched with value 0 and has no initial-write record. -/
def sampleStorageRich : Storage where
  getL1BatchHeader := fun n => .ok (some ⟨n, 100⟩)
  getProtectiveReads := fun _ => .ok [5]
  getTouchedSlots := fun _ => .ok [(5, 8), (2, 3), (4, 0)]
  getL1BatchesForInitialWrites := fun _ => .ok fun _ => none
  getPreviousStorageValues := fun _ _ => .ok fun k => if k = 5 then some 8 else none

/-- A sample tree with a single leaf: key 5 stores value 8 at index 1. -/
def sampleTree : ZkSyncTree := ⟨[(5, ⟨8, 1⟩)], 2, 1⟩

/-- A sample log store with two zero-valued touched slots: key 4 has no
initial-write record, key 6 was first written in batch 1. -/
def sampleStorageZeroValues : Storage where
  getL1BatchHeader := fun n => .ok (some ⟨n, 100⟩)
  getProtectiveReads := fun _ => .ok []
  getTouchedSlots := fun _ => .ok [(4, 0), (6, 0)]
  getL1BatchesForInitialWrites := fun _ => .ok fun hk => if hk = 6 then some 1 else none
  getPreviousStorageValues := fun _ _ => .ok fun _ => none

/-! ## Generic lemmas about the map representations -/

theorem lookupLog_insertLog (log : StorageLog) (m : List StorageLog) (k : StorageKey) :
    lookupLog k (insertLog log m) =
      if log.key = k then some log else lookupLog k m := by
  induction m with
  | nil => simp [insertLog, lookupLog]
  | cons l ls ih =>
    by_cases h1 : log.key < l.key
    · simp [insertLog, h1, lookupLog]
    · by_cases h2 : log.key = l.key
      · simp only [insertLog, if_neg h1, if_pos h2, lookupLog]
        by_cases hk : log.key = k
        · simp [hk]
        · have hlk : ¬l.key = k := fun h => hk (h2.trans h)
          simp [hk, hlk]
      · simp only [insertLog, if_neg h1, if_neg h2, lookupLog, ih]
        by_cases hlk : l.key = k
        · have hk : ¬log.key = k := fun h => h2 (h.trans hlk.symm)
          simp [hlk, hk]
        · simp [hlk]

theorem mem_insertLog {x log : StorageLog} {m : List StorageLog}
    (hx : x ∈ insertLog log m) : x = log ∨ x ∈ m := by
  induction m with
  | nil => simpa [insertLog] using hx
  | cons l ls ih =>
    by_cases h1 : log.key < l.key
    · simp only [insertLog, if_pos h1, List.mem_cons] at hx
      rcases hx with h | h | h
      · exact .inl h
      · exact .inr (List.mem_cons.mpr (.inl h))
      · exact .inr (List.mem_cons.mpr (.inr h))
    · by_cases h2 : log.key = l.key
      · simp only [insertLog, if_neg h1, if_pos h2, List.mem_cons] at hx
        rcases hx with h | h
        · exact .inl h
        · exact .inr (List.mem_cons.mpr (.inr h))
      · simp only [insertLog, if_neg h1, if_neg h2, List.mem_cons] at hx
        rcases hx with h | h
        · exact .inr (List.mem_cons.mpr (.inl h))
        · rcases ih h with h' | h'
          · exact .inl h'
          · exact .inr (List.mem_cons.mpr (.inr h'))

theorem insertLog_sorted {log : StorageLog} {m : List StorageLog}
    (hm : LogsSorted m) : LogsSorted (insertLog log m) := by
  induction m with
  | nil => simp [insertLog, LogsSorted]
  | cons l ls ih =>
    rw [LogsSorted, List.pairwise_cons] at hm
    obtain ⟨hl, hls⟩ := hm
    by_cases h1 : log.key < l.key
    · rw [LogsSorted, insertLog, if_pos h1, List.pairwise_cons]
      refine ⟨?_, ?_⟩
      · intro a ha
        rcases List.mem_cons.mp ha with h | h
        · exact h ▸ h1
        · exact h1.trans (hl a h)
      · rw [List.pairwise_cons]; exact ⟨hl, hls⟩
    · by_cases h2 : log.key = l.key
      · rw [LogsSorted, insertLog, if_neg h1, if_pos h2, List.pairwise_cons]
        exact ⟨fun a ha => h2 ▸ hl a ha, hls⟩
      · have h3 : l.key < log.key :=
          (Nat.le_of_not_lt h1).lt_of_ne fun h => h2 h.symm
        rw [LogsSorted, insertLog, if_neg h1, if_neg h2, List.pairwise_cons]
        refine ⟨?_, ih hls⟩
        intro a ha
        rcases mem_insertLog ha with h | h
        · exact h ▸ h3
        · exact hl a h

theorem lookupLog_eq_some {k : StorageKey} {l : List StorageLog} {e : StorageLog}
    (h : lookupLog k l = some e) : e ∈ l ∧ e.key = k := by
  induction l with
  | nil => simp [lookupLog] at h
  | cons a ls ih =>
    rw [lookupLog] at h
    by_cases ha : a.key = k
    · rw [if_pos ha] at h
      obtain rfl : a = e := Option.some.inj h
      exact ⟨List.mem_cons_self a ls, ha⟩
    · rw [if_neg ha] at h
      obtain ⟨h1, h2⟩ := ih h
      exact ⟨List.mem_cons_of_mem a h1, h2⟩

theorem lookupLog_eq_none_iff {k : StorageKey} {l : List StorageLog} :
    lookupLog k l = none ↔ ∀ e ∈ l, e.key ≠ k := by
  induction l with
  | nil => simp [lookupLog]
  | cons a ls ih =>
    rw [lookupLog]
    by_cases ha : a.key = k
    · simp [ha]
    · simp only [if_neg ha, ih, List.mem_cons]
      constructor
      · rintro h e (rfl | he)
        · exact ha
        · exact h e he
      · intro h e he
        exact h e (.inr he)

theorem lookupLog_of_mem {e : StorageLog} {l : List StorageLog}
    (hl : LogsSorted l) (he : e ∈ l) : lookupLog e.key l = some e := by
  induction l with
  | nil => simp at he
  | cons a ls ih =>
    rw [LogsSorted, List.pairwise_cons] at hl
    obtain ⟨ha, hls⟩ := hl
    rcases List.mem_cons.mp he with rfl | he'
    · simp [lookupLog]
    · have hne : a.key ≠ e.key := Nat.ne_of_lt (ha e he')
      rw [lookupLog, if_neg hne]
      exact ih hls he'

theorem lookupSlot_eq_none_iff {k : StorageKey} {m : SlotMap} :
    lookupSlot k m = none ↔ k ∉ m.map Prod.fst := by
  induction m with
  | nil => simp [lookupSlot]
  | cons p ps ih =>
    rw [lookupSlot]
    by_cases hp : p.1 = k
    · simp [hp]
    · simp only [if_neg hp, ih, List.map_cons, List.mem_cons]
      constructor
      · rintro h (rfl | hk)
        · exact hp rfl
        · exact h hk
      · intro h hk
        exact h (.inr hk)

theorem lookupSlot_mem_keys {k : StorageKey} {m : SlotMap} {v : H256}
    (h : lookupSlot k m = some v) : k ∈ m.map Prod.fst := by
  by_contra hk
  rw [← lookupSlot_eq_none_iff] at hk
  rw [hk] at h
  exact Option.noConfusion h

theorem lookupSlot_removeSlot (k k' : StorageKey) (m : SlotMap) :
    lookupSlot k (removeSlot k' m) =
      if k' = k then none else lookupSlot k m := by
  induction m with
  | nil => simp [removeSlot, lookupSlot]
  | cons p ps ih =>
    simp only [removeSlot, List.filter_cons] at ih ⊢
    by_cases hp : p.1 = k'
    · have hb : (p.1 != k') = false := by simp [hp]
      rw [hb, if_neg (by simp), ih]
      by_cases hk : k' = k
      · simp [hk]
      · have hpk : ¬p.1 = k := fun h => hk (hp ▸ h)
        simp only [lookupSlot, if_neg hk, if_neg hpk]
    · have hb : (p.1 != k') = true := bne_iff_ne.mpr hp
      rw [hb, if_pos rfl]
      simp only [lookupSlot, ih]
      by_cases hpk : p.1 = k
      · have hk : ¬k' = k := fun h => hp (hpk.trans h.symm)
        simp [hpk, hk]
      · simp [hpk]

theorem removeSlot_keys_nodup {k : StorageKey} {m : SlotMap}
    (h : (m.map Prod.fst).Nodup) : ((removeSlot k m).map Prod.fst).Nodup :=
  ((List.filter_sublist m).map Prod.fst).nodup h

/-! ## Characterization of the optimized loader's two loops -/

theorem applyProtectiveReads_nil (st : SlotMap × List StorageLog) :
    applyProtectiveReads [] st = st := rfl

theorem applyProtectiveReads_cons (k : StorageKey) (pr : List StorageKey)
    (st : SlotMap × List StorageLog) :
    applyProtectiveReads (k :: pr) st =
      applyProtectiveReads pr
        (removeSlot k st.1, insertLog (StorageLog.newReadLog k 0) st.2) := rfl

theorem applyProtectiveReads_fst_lookup (pr : List StorageKey)
    (st : SlotMap × List StorageLog) (k : StorageKey) :
    lookupSlot k (applyProtectiveReads pr st).1 =
      if k ∈ pr then none else lookupSlot k st.1 := by
  induction pr generalizing st with
  | nil => simp [applyProtectiveReads_nil]
  | cons k₀ pr ih =>
    rw [applyProtectiveReads_cons, ih]
    by_cases hk : k ∈ pr
    · simp [hk]
    · by_cases hk₀ : k = k₀
      · simp [hk, hk₀, lookupSlot_removeSlot]
      · have : k ∉ k₀ :: pr := by
          simp only [List.mem_cons]; rintro (rfl | h) <;> [exact hk₀ rfl; exact hk h]
        simp only [if_neg hk, if_neg this, lookupSlot_removeSlot]
        rw [if_neg (fun h => hk₀ h.symm)]

theorem applyProtectiveReads_snd_lookup (pr : List StorageKey)
    (st : SlotMap × List StorageLog) (k : StorageKey) :
    lookupLog k (applyProtectiveReads pr st).2 =
      if k ∈ pr then some (StorageLog.newReadLog k 0) else lookupLog k st.2 := by
  induction pr generalizing st with
  | nil => simp [applyProtectiveReads_nil]
  | cons k₀ pr ih =>
    rw [applyProtectiveReads_cons, ih]
    by_cases hk : k ∈ pr
    · simp [hk]
    · by_cases hk₀ : k = k₀
      · subst hk₀
        simp only [if_neg hk, List.mem_cons, true_or, if_true]
        rw [lookupLog_insertLog]
        simp [StorageLog.newReadLog]
      · have hmem : k ∉ k₀ :: pr := by
          simp only [List.mem_cons]; rintro (rfl | h) <;> [exact hk₀ rfl; exact hk h]
        simp only [if_neg hk, if_neg hmem]
        rw [lookupLog_insertLog]
        have : ¬(StorageLog.newReadLog k₀ 0).key = k := fun h => hk₀ (h.symm)
        rw [if_neg this]

theorem applyProtectiveReads_fst_nodup (pr : List StorageKey)
    (st : SlotMap × List StorageLog) (h : (st.1.map Prod.fst).Nodup) :
    ((applyProtectiveReads pr st).1.map Prod.fst).Nodup := by
  induction pr generalizing st with
  | nil => exact h
  | cons k₀ pr ih =>
    rw [applyProtectiveReads_cons]
    exact ih _ (removeSlot_keys_nodup h)

theorem applyProtectiveReads_snd_sorted (pr : List StorageKey)
    (st : SlotMap × List StorageLog) (h : LogsSorted st.2) :
    LogsSorted (applyProtectiveReads pr st).2 := by
  induction pr generalizing st with
  | nil => exact h
  | cons k₀ pr ih =>
    rw [applyProtectiveReads_cons]
    exact ih _ (insertLog_sorted h)

theorem applyTouchedSlots_nil (iw : StorageKey → Option L1BatchNumber)
    (n : L1BatchNumber) (logs : List StorageLog) :
    applyTouchedSlots [] iw n logs = logs := rfl

theorem applyTouchedSlots_cons (p : StorageKey × H256) (ts : SlotMap)
    (iw : StorageKey → Option L1BatchNumber) (n : L1BatchNumber)
    (logs : List StorageLog) :
    applyTouchedSlots (p :: ts) iw n logs =
      applyTouchedSlots ts iw n
        (if writeMatters iw n p.1 p.2 then
          insertLog (StorageLog.newWriteLog p.1 p.2) logs
        else logs) := rfl

theorem applyTouchedSlots_lookup (ts : SlotMap)
    (iw : StorageKey → Option L1BatchNumber) (n : L1BatchNumber)
    (logs : List StorageLog) (k : StorageKey)
    (hnodup : (ts.map Prod.fst).Nodup) :
    lookupLog k (applyTouchedSlots ts iw n logs) =
      match lookupSlot k ts with
      | some v =>
        if writeMatters iw n k v then some (StorageLog.newWriteLog k v)
        else lookupLog k logs
      | none => lookupLog k logs := by
  induction ts generalizing logs with
  | nil => simp [applyTouchedSlots_nil, lookupSlot]
  | cons p ts ih =>
    rw [List.map_cons, List.nodup_cons] at hnodup
    obtain ⟨hp, hts⟩ := hnodup
    rw [applyTouchedSlots_cons, ih _ hts]
    by_cases hk : p.1 = k
    · subst hk
      have h1 : lookupSlot p.1 ts = none :=
        lookupSlot_eq_none_iff.mpr hp
      have h2 : lookupSlot p.1 (p :: ts) = some p.2 := by
        simp [lookupSlot]
      rw [h1, h2]
      by_cases hwm : writeMatters iw n p.1 p.2
      · simp only [hwm, if_true]
        rw [lookupLog_insertLog]
        simp [StorageLog.newWriteLog]
      · simp [hwm]
    · have h2 : lookupSlot k (p :: ts) = lookupSlot k ts := by
        simp [lookupSlot, hk]
      rw [h2]
      have hlogs :
          lookupLog k (if writeMatters iw n p.1 p.2 then
              insertLog (StorageLog.newWriteLog p.1 p.2) logs
            else logs) = lookupLog k logs := by
        by_cases hwm : writeMatters iw n p.1 p.2
        · simp only [hwm, if_true]
          rw [lookupLog_insertLog]
          exact if_neg (fun h => hk h)
        · simp [hwm]
      cases lookupSlot k ts with
      | none => exact hlogs
      | some v =>
        by_cases hwm : writeMatters iw n k v
        · simp [hwm]
        · simp [hwm, hlogs]

theorem applyTouchedSlots_sorted (ts : SlotMap)
    (iw : StorageKey → Option L1BatchNumber) (n : L1BatchNumber)
    (logs : List StorageLog) (h : LogsSorted logs) :
    LogsSorted (applyTouchedSlots ts iw n logs) := by
  induction ts generalizing logs with
  | nil => exact h
  | cons p ts ih =>
    rw [applyTouchedSlots_cons]
    by_cases hwm : writeMatters iw n p.1 p.2
    · simp only [hwm, if_true]
      exact ih _ (insertLog_sorted h)
    · simp only [hwm, if_false, Bool.false_eq_true]
      exact ih _ h

theorem newStorageLogs_lookup (pr : List StorageKey) (ts : SlotMap)
    (iw : StorageKey → Option L1BatchNumber) (n : L1BatchNumber) (k : StorageKey)
    (hnodup : (ts.map Prod.fst).Nodup) :
    lookupLog k (newStorageLogs pr ts iw n) =
      if k ∈ pr then some (StorageLog.newReadLog k 0)
      else
        match lookupSlot k ts with
        | some v =>
          if writeMatters iw n k v then some (StorageLog.newWriteLog k v) else none
        | none => none := by
  have hrepr : newStorageLogs pr ts iw n =
      applyTouchedSlots (applyProtectiveReads pr (ts, [])).1 iw n
        (applyProtectiveReads pr (ts, [])).2 := rfl
  rw [hrepr,
    applyTouchedSlots_lookup _ _ _ _ _ (applyProtectiveReads_fst_nodup pr _ hnodup),
    applyProtectiveReads_fst_lookup, applyProtectiveReads_snd_lookup]
  by_cases hk : k ∈ pr
  · simp [hk]
  · simp only [if_neg hk]
    cases lookupSlot k ts with
    | none => simp [lookupLog]
    | some v =>
      by_cases hwm : writeMatters iw n k v
      · simp [hwm]
      · simp [hwm, lookupLog]

theorem newStorageLogs_sorted (pr : List StorageKey) (ts : SlotMap)
    (iw : StorageKey → Option L1BatchNumber) (n : L1BatchNumber) :
    LogsSorted (newStorageLogs pr ts iw n) :=
  applyTouchedSlots_sorted _ _ _ _
    (applyProtectiveReads_snd_sorted _ _ (List.Pairwise.nil))

/-! ## Characterization of the naive reference loader's two loops -/

theorem slowReadFold_nil (prev : StorageKey → Option H256) (logs : List StorageLog) :
    slowReadFold [] prev logs = logs := rfl

theorem slowReadFold_cons (k : StorageKey) (pr : List StorageKey)
    (prev : StorageKey → Option H256) (logs : List StorageLog) :
    slowReadFold (k :: pr) prev logs =
      slowReadFold pr prev
        (insertLog (StorageLog.newReadLog k ((prev (StorageKey.hashedKey k)).getD 0)) logs) := rfl

theorem slowReadFold_lookup (pr : List StorageKey)
    (prev : StorageKey → Option H256) (logs : List StorageLog) (k : StorageKey) :
    lookupLog k (slowReadFold pr prev logs) =
      if k ∈ pr then
        some (StorageLog.newReadLog k ((prev (StorageKey.hashedKey k)).getD 0))
      else lookupLog k logs := by
  induction pr generalizing logs with
  | nil => simp [slowReadFold_nil]
  | cons k₀ pr ih =>
    rw [slowReadFold_cons, ih]
    by_cases hk : k ∈ pr
    · simp [hk]
    · by_cases hk₀ : k = k₀
      · subst hk₀
        simp only [if_neg hk, List.mem_cons, true_or, if_true]
        rw [lookupLog_insertLog]
        simp [StorageLog.newReadLog]
      · have hmem : k ∉ k₀ :: pr := by
          simp only [List.mem_cons]; rintro (rfl | h) <;> [exact hk₀ rfl; exact hk h]
        simp only [if_neg hk, if_neg hmem]
        rw [lookupLog_insertLog]
        have : ¬(StorageLog.newReadLog k₀ ((prev (StorageKey.hashedKey k₀)).getD 0)).key = k :=
          fun h => hk₀ h.symm
        rw [if_neg this]

theorem slowReadFold_sorted (pr : List StorageKey)
    (prev : StorageKey → Option H256) (logs : List StorageLog)
    (h : LogsSorted logs) : LogsSorted (slowReadFold pr prev logs) := by
  induction pr generalizing logs with
  | nil => exact h
  | cons k₀ pr ih =>
    rw [slowReadFold_cons]
    exact ih _ (insertLog_sorted h)

theorem slowReadLogs_eq_ok (pr : List StorageKey) (ts : SlotMap)
    (prev : StorageKey → Option H256) (logs : List StorageLog)
    (hassert : ∀ k ∈ pr, ∀ v, lookupSlot k ts = some v →
      (prev (StorageKey.hashedKey k)).getD 0 = v) :
    slowReadLogs pr ts prev logs = .ok (slowReadFold pr prev logs) := by
  induction pr generalizing logs with
  | nil => rfl
  | cons k₀ pr ih =>
    have hassert' : ∀ k ∈ pr, ∀ v, lookupSlot k ts = some v →
        (prev (StorageKey.hashedKey k)).getD 0 = v :=
      fun k hk => hassert k (List.mem_cons_of_mem _ hk)
    rw [slowReadLogs, slowReadFold_cons]
    cases hts : lookupSlot k₀ ts with
    | none => exact ih _ hassert'
    | some value =>
      have heq : (prev (StorageKey.hashedKey k₀)).getD 0 = value :=
        hassert k₀ (List.mem_cons_self _ _) value hts
      simp only [heq, if_pos rfl]
      rw [← heq]
      exact ih _ hassert'

theorem slowWriteLogs_nil (prev : StorageKey → Option H256) (logs : List StorageLog) :
    slowWriteLogs [] prev logs = logs := rfl

theorem slowWriteLogs_cons (p : StorageKey × H256) (ts : SlotMap)
    (prev : StorageKey → Option H256) (logs : List StorageLog) :
    slowWriteLogs (p :: ts) prev logs =
      slowWriteLogs ts prev
        (if (prev (StorageKey.hashedKey p.1)).getD 0 ≠ p.2 then
          insertLog (StorageLog.newWriteLog p.1 p.2) logs
        else logs) := rfl

theorem slowWriteLogs_lookup (ts : SlotMap) (prev : StorageKey → Option H256)
    (logs : List StorageLog) (k : StorageKey)
    (hnodup : (ts.map Prod.fst).Nodup) :
    lookupLog k (slowWriteLogs ts prev logs) =
      match lookupSlot k ts with
      | some v =>
        if (prev (StorageKey.hashedKey k)).getD 0 ≠ v then
          some (StorageLog.newWriteLog k v)
        else lookupLog k logs
      | none => lookupLog k logs := by
  induction ts generalizing logs with
  | nil => simp [slowWriteLogs_nil, lookupSlot]
  | cons p ts ih =>
    rw [List.map_cons, List.nodup_cons] at hnodup
    obtain ⟨hp, hts⟩ := hnodup
    rw [slowWriteLogs_cons, ih _ hts]
    by_cases hk : p.1 = k
    · subst hk
      have h1 : lookupSlot p.1 ts = none := lookupSlot_eq_none_iff.mpr hp
      have h2 : lookupSlot p.1 (p :: ts) = some p.2 := by simp [lookupSlot]
      rw [h1, h2]
      dsimp only
      by_cases hd : (prev (StorageKey.hashedKey p.1)).getD 0 ≠ p.2
      · rw [if_pos hd, if_pos hd, lookupLog_insertLog]
        simp [StorageLog.newWriteLog]
      · rw [if_neg hd, if_neg hd]
    · have h2 : lookupSlot k (p :: ts) = lookupSlot k ts := by
        simp [lookupSlot, hk]
      rw [h2]
      have hlogs :
          lookupLog k (if (prev (StorageKey.hashedKey p.1)).getD 0 ≠ p.2 then
              insertLog (StorageLog.newWriteLog p.1 p.2) logs
            else logs) = lookupLog k logs := by
        by_cases hd : (prev (StorageKey.hashedKey p.1)).getD 0 ≠ p.2
        · rw [if_pos hd, lookupLog_insertLog]
          exact if_neg (fun h => hk h)
        · rw [if_neg hd]
      cases hc : lookupSlot k ts with
      | none => exact hlogs
      | some v =>
        dsimp only
        by_cases hd : (prev (StorageKey.hashedKey k)).getD 0 ≠ v
        · rw [if_pos hd, if_pos hd]
        · rw [if_neg hd, if_neg hd]
          exact hlogs

theorem slowWriteLogs_sorted (ts : SlotMap) (prev : StorageKey → Option H256)
    (logs : List StorageLog) (h : LogsSorted logs) :
    LogsSorted (slowWriteLogs ts prev logs) := by
  induction ts generalizing logs with
  | nil => exact h
  | cons p ts ih =>
    rw [slowWriteLogs_cons]
    by_cases hd : (prev (StorageKey.hashedKey p.1)).getD 0 ≠ p.2
    · rw [if_pos hd]
      exact ih _ (insertLog_sorted h)
    · rw [if_neg hd]
      exact ih _ h

/-! ## Unfolding the fallible loaders -/

theorem exceptBindOk {ε α β : Type} (a : α) (f : α → Except ε β) :
    (Except.ok a >>= f : Except ε β) = f a := rfl

theorem exceptBindError {ε α β : Type} (e : ε) (f : α → Except ε β) :
    (Except.error e >>= f : Except ε β) = Except.error e := rfl

theorem new_unfold (storage : Storage) (n : L1BatchNumber) :
    L1BatchWithLogs.new storage n =
      match storage.getL1BatchHeader n with
      | .error e => .error e
      | .ok none => .ok none
      | .ok (some header) =>
        match storage.getProtectiveReads n with
        | .error e => .error e
        | .ok pr =>
          match storage.getTouchedSlots n with
          | .error e => .error e
          | .ok ts =>
            match storage.getL1BatchesForInitialWrites
                (zeroValueHashedKeys (applyProtectiveReads pr (ts, [])).1) with
            | .error e => .error e
            | .ok iw => .ok (some ⟨header, newStorageLogs pr ts iw n⟩) := by
  cases hH : storage.getL1BatchHeader n with
  | error e => simp [L1BatchWithLogs.new, hH, exceptBindError]
  | ok ho =>
    cases ho with
    | none => simp [L1BatchWithLogs.new, hH, exceptBindOk]; rfl
    | some header =>
      cases hP : storage.getProtectiveReads n with
      | error e => simp [L1BatchWithLogs.new, hH, hP, exceptBindOk, exceptBindError]
      | ok pr =>
        cases hT : storage.getTouchedSlots n with
        | error e => simp [L1BatchWithLogs.new, hH, hP, hT, exceptBindOk, exceptBindError]
        | ok ts =>
          cases hIW : storage.getL1BatchesForInitialWrites
              (zeroValueHashedKeys (applyProtectiveReads pr (ts, [])).1) with
          | error e =>
            simp [L1BatchWithLogs.new, hH, hP, hT, hIW, exceptBindOk, exceptBindError]
          | ok iw =>
            simp [L1BatchWithLogs.new, hH, hP, hT, hIW, exceptBindOk]
            rfl

theorem new_eq_ok (storage : Storage) (n : L1BatchNumber) (header : L1BatchHeader)
    (pr : List StorageKey) (ts : SlotMap) (iw : StorageKey → Option L1BatchNumber)
    (hH : storage.getL1BatchHeader n = .ok (some header))
    (hP : storage.getProtectiveReads n = .ok pr)
    (hT : storage.getTouchedSlots n = .ok ts)
    (hIW : storage.getL1BatchesForInitialWrites
        (zeroValueHashedKeys (applyProtectiveReads pr (ts, [])).1) = .ok iw) :
    L1BatchWithLogs.new storage n = .ok (some ⟨header, newStorageLogs pr ts iw n⟩) := by
  simp [L1BatchWithLogs.new, hH, hP, hT, hIW, exceptBindOk]
  rfl

theorem slow_eq_ok (storage : Storage) (n : L1BatchNumber) (header : L1BatchHeader)
    (pr : List StorageKey) (ts : SlotMap) (prev : StorageKey → Option H256)
    (hH : storage.getL1BatchHeader n = .ok (some header))
    (hP : storage.getProtectiveReads n = .ok pr)
    (hT : storage.getTouchedSlots n = .ok ts)
    (hPrev : storage.getPreviousStorageValues (slowHashedKeys pr ts) n = .ok prev)
    (hassert : ∀ k ∈ pr, ∀ v, lookupSlot k ts = some v →
      (prev (StorageKey.hashedKey k)).getD 0 = v) :
    L1BatchWithLogs.slow storage n =
      .ok (some ⟨header, slowWriteLogs ts prev (slowReadFold pr prev [])⟩) := by
  simp [L1BatchWithLogs.slow, hH, hP, hT, hPrev, liftDal, exceptBindOk,
    slowReadLogs_eq_ok pr ts prev [] hassert]

/-! ## Lemmas about applying logs to the tree -/

theorem lookupLeaf_append_ne {k' k : StorageKey} (leaf : Leaf)
    (ls : List (StorageKey × Leaf)) (h : k ≠ k') :
    lookupLeaf k' (ls ++ [(k, leaf)]) = lookupLeaf k' ls := by
  induction ls with
  | nil => simp [lookupLeaf, h]
  | cons p ps ih =>
    rw [List.cons_append, lookupLeaf, lookupLeaf]
    by_cases hp : p.1 = k'
    · rw [if_pos hp, if_pos hp]
    · rw [if_neg hp, if_neg hp, ih]

theorem lookupLeaf_updateLeaf_ne {k' k : StorageKey} (v : H256)
    (ls : List (StorageKey × Leaf)) (h : k ≠ k') :
    lookupLeaf k' (updateLeaf ls k v) = lookupLeaf k' ls := by
  induction ls with
  | nil => simp [updateLeaf, lookupLeaf]
  | cons p ps ih =>
    rw [updateLeaf, List.map_cons]
    by_cases hp : p.1 = k
    · rw [if_pos hp, lookupLeaf, lookupLeaf]
      have : ¬p.1 = k' := fun hh => h (hp ▸ hh)
      rw [if_neg this, if_neg this]
      exact ih
    · rw [if_neg hp, lookupLeaf, lookupLeaf]
      by_cases hpk : p.1 = k'
      · rw [if_pos hpk, if_pos hpk]
      · rw [if_neg hpk, if_neg hpk]
        exact ih

theorem treeStep_lookup_ne {st : TreeProcessingState} {log : StorageLog}
    {k' : StorageKey} (h : log.key ≠ k') :
    lookupLeaf k' (treeStep st log).tree.leaves = lookupLeaf k' st.tree.leaves := by
  obtain ⟨kind, key, value⟩ := log
  cases kind with
  | Read => rfl
  | Write =>
    dsimp only [treeStep]
    cases hleaf : lookupLeaf key st.tree.leaves with
    | none => exact lookupLeaf_append_ne _ _ h
    | some leaf =>
      dsimp only
      by_cases hv : leaf.value = value
      · rw [if_pos hv]
      · rw [if_neg hv]
        exact lookupLeaf_updateLeaf_ne _ _ h

theorem treeStep_noop {st : TreeProcessingState} {log : StorageLog}
    (hnoop : log.kind = .Write ∧ ∃ leaf,
      lookupLeaf log.key st.tree.leaves = some leaf ∧ leaf.value = log.value) :
    treeStep st log = st := by
  obtain ⟨hkind, leaf, hleaf, hv⟩ := hnoop
  obtain ⟨kind, key, value⟩ := log
  cases hkind
  dsimp only [treeStep]
  dsimp only at hleaf hv
  rw [hleaf]
  dsimp only
  rw [if_pos hv]

theorem treeStep_congr {st : TreeProcessingState} {a b : StorageLog}
    (hab : SameTreeEffect a b) : treeStep st a = treeStep st b := by
  obtain ⟨hkey, hk⟩ := hab
  obtain ⟨ka, keya, va⟩ := a
  obtain ⟨kb, keyb, vb⟩ := b
  dsimp only at hkey
  subst hkey
  rcases hk with ⟨h1, h2⟩ | ⟨h1, h2, h3⟩
  · dsimp only at h1 h2
    subst h1; subst h2
    rfl
  · dsimp only at h1 h2 h3
    subst h1; subst h2; subst h3
    rfl

theorem foldl_treeStep_eq_of_sim {t₀ : ZkSyncTree} {l₁ l₂ : List StorageLog}
    (hsim : LogListSim t₀ l₁ l₂) :
    ∀ st : TreeProcessingState, LogsSorted l₁ →
      (∀ e ∈ l₁, lookupLeaf e.key st.tree.leaves = lookupLeaf e.key t₀.leaves) →
      l₁.foldl treeStep st = l₂.foldl treeStep st := by
  induction hsim with
  | nil => intro st _ _; rfl
  | @skip log l₁ l₂ hnoop hsim ih =>
    intro st hsorted hlk
    obtain ⟨hkind, leaf, hleaf, hv⟩ := hnoop
    have hstep : treeStep st log = st := by
      refine treeStep_noop ⟨hkind, leaf, ?_, hv⟩
      rw [hlk log (List.mem_cons_self _ _)]
      exact hleaf
    rw [LogsSorted, List.pairwise_cons] at hsorted
    rw [List.foldl_cons, hstep]
    exact ih st hsorted.2 fun e he => hlk e (List.mem_cons_of_mem _ he)
  | @cons a b l₁ l₂ hab hsim ih =>
    intro st hsorted hlk
    rw [LogsSorted, List.pairwise_cons] at hsorted
    obtain ⟨haT, hT⟩ := hsorted
    rw [List.foldl_cons, List.foldl_cons, ← treeStep_congr hab]
    refine ih (treeStep st a) hT fun e he => ?_
    have hne : a.key ≠ e.key := Nat.ne_of_lt (haT e he)
    rw [treeStep_lookup_ne hne]
    exact hlk e (List.mem_cons_of_mem _ he)

theorem sim_of_keyRel (t₀ : ZkSyncTree) :
    ∀ l₁ l₂ : List StorageLog, LogsSorted l₁ → LogsSorted l₂ →
      (∀ k, KeyRel t₀ (lookupLog k l₁) (lookupLog k l₂)) → LogListSim t₀ l₁ l₂ := by
  intro l₁
  induction l₁ with
  | nil =>
    intro l₂ _ _ hrel
    cases l₂ with
    | nil => exact .nil
    | cons c t₂ =>
      have h := hrel c.key
      have hc : lookupLog c.key (c :: t₂) = some c := by simp [lookupLog]
      rw [hc] at h
      exact absurd h (by dsimp [lookupLog, KeyRel]; exact fun h => h)
  | cons a t₁ ih =>
    intro l₂ hs1 hs2 hrel
    have hs1' := hs1
    rw [LogsSorted, List.pairwise_cons] at hs1'
    obtain ⟨haT, hT1⟩ := hs1'
    have ha : lookupLog a.key (a :: t₁) = some a := by simp [lookupLog]
    have htail1 : lookupLog a.key t₁ = none :=
      lookupLog_eq_none_iff.mpr fun e he => (Nat.ne_of_lt (haT e he)).symm
    cases hlb : lookupLog a.key l₂ with
    | none =>
      have hrel_a := hrel a.key
      rw [ha, hlb] at hrel_a
      refine .skip hrel_a (ih l₂ hT1 hs2 fun k => ?_)
      by_cases hk : k = a.key
      · subst hk
        rw [htail1, hlb]
        trivial
      · have h := hrel k
        rw [lookupLog, if_neg fun h' => hk h'.symm] at h
        exact h
    | some b =>
      have hrel_a := hrel a.key
      rw [ha, hlb] at hrel_a
      obtain ⟨hbmem, hbkey⟩ := lookupLog_eq_some hlb
      cases l₂ with
      | nil => simp at hbmem
      | cons c t₂ =>
        have hs2' := hs2
        rw [LogsSorted, List.pairwise_cons] at hs2'
        obtain ⟨hcT, hT2⟩ := hs2'
        have hc_mem : ∃ a', lookupLog c.key (a :: t₁) = some a' := by
          have hrel_c := hrel c.key
          have hcc : lookupLog c.key (c :: t₂) = some c := by simp [lookupLog]
          cases hl1 : lookupLog c.key (a :: t₁) with
          | none =>
            rw [hl1, hcc] at hrel_c
            exact absurd hrel_c (by dsimp [KeyRel]; exact fun h => h)
          | some a' => exact ⟨a', rfl⟩
        obtain ⟨a', ha'⟩ := hc_mem
        obtain ⟨ha'mem, ha'key⟩ := lookupLog_eq_some ha'
        have h1 : a.key ≤ c.key := by
          rcases List.mem_cons.mp ha'mem with rfl | h
          · exact ha'key ▸ Nat.le_refl _
          · exact Nat.le_of_lt (ha'key ▸ haT a' h)
        have h2 : c.key ≤ a.key := by
          rcases List.mem_cons.mp hbmem with rfl | h
          · exact hbkey ▸ Nat.le_refl _
          · exact Nat.le_of_lt (hbkey ▸ hcT b h)
        have hkey_eq : c.key = a.key := Nat.le_antisymm h2 h1
        have hbc : b = c := by
          rw [lookupLog, if_pos hkey_eq] at hlb
          exact (Option.some.inj hlb).symm
        subst hbc
        have htail2 : lookupLog a.key t₂ = none :=
          lookupLog_eq_none_iff.mpr fun e he =>
            (Nat.ne_of_lt (hkey_eq ▸ hcT e he)).symm
        refine .cons hrel_a (ih t₂ hT1 hT2 fun k => ?_)
        by_cases hk : k = a.key
        · subst hk
          rw [htail1, htail2]
          trivial
        · have h := hrel k
          rw [lookupLog, if_neg fun h' => hk h'.symm] at h
          rw [lookupLog, if_neg fun h' => hk ((hkey_eq ▸ h' : a.key = k)).symm] at h
          exact h

theorem keyRel_of_contract (t₀ : ZkSyncTree) (pr : List StorageKey) (ts : SlotMap)
    (iw : StorageKey → Option L1BatchNumber) (prev : StorageKey → Option H256)
    (n : L1BatchNumber) (hnodup : (ts.map Prod.fst).Nodup)
    (hc : DedupContract t₀ pr ts iw prev n) (k : StorageKey) :
    KeyRel t₀ (lookupLog k (newStorageLogs pr ts iw n))
      (lookupLog k (slowWriteLogs ts prev (slowReadFold pr prev []))) := by
  rw [newStorageLogs_lookup pr ts iw n k hnodup,
    slowWriteLogs_lookup ts prev (slowReadFold pr prev []) k hnodup,
    slowReadFold_lookup pr prev [] k]
  by_cases hk : k ∈ pr
  · rw [if_pos hk, if_pos hk]
    cases hts : lookupSlot k ts with
    | none => exact ⟨rfl, .inl ⟨rfl, rfl⟩⟩
    | some v =>
      dsimp only
      have hpv : (prev (StorageKey.hashedKey k)).getD 0 = v := by
        rw [hc.previousMatchesTree k (Or.inl hk)]
        exact hc.protectiveReadsUnchanged k hk v hts
      rw [if_neg (fun hne => hne hpv)]
      exact ⟨rfl, .inl ⟨rfl, rfl⟩⟩
  · rw [if_neg hk, if_neg hk]
    cases hts : lookupSlot k ts with
    | none =>
      dsimp only [lookupLog, KeyRel]
    | some v =>
      dsimp only
      have hprevtree : (prev (StorageKey.hashedKey k)).getD 0 = treeValueD t₀ k :=
        hc.previousMatchesTree k (Or.inr (lookupSlot_mem_keys hts))
      by_cases hv : v = 0
      · subst hv
        by_cases hwm : writeMatters iw n k 0 = true
        · rw [if_pos hwm]
          by_cases hpz : (prev (StorageKey.hashedKey k)).getD 0 ≠ 0
          · rw [if_pos hpz]
            exact ⟨rfl, .inr ⟨rfl, rfl, rfl⟩⟩
          · rw [if_neg hpz]
            dsimp only [lookupLog]
            have hp0 : (prev (StorageKey.hashedKey k)).getD 0 = 0 := not_not.mp hpz
            cases hleaf : lookupLeaf k t₀.leaves with
            | none =>
              exfalso
              have habs := hc.initialWriteOfAbsent k hk hts hleaf
              rw [writeMatters, if_pos rfl] at hwm
              cases hiw : iw (StorageKey.hashedKey k) with
              | none => rw [hiw] at hwm; simp at hwm
              | some b =>
                rw [hiw] at hwm
                simp only [decide_eq_true_eq] at hwm
                exact absurd hwm (Nat.not_le.mpr (habs b hiw))
            | some leaf =>
              refine ⟨rfl, leaf, hleaf, ?_⟩
              show leaf.value = 0
              have hv : treeValueD t₀ k = leaf.value := by simp [treeValueD, hleaf]
              rw [← hv, ← hprevtree]
              exact hp0
        · rw [if_neg hwm]
          have hpz : (prev (StorageKey.hashedKey k)).getD 0 = 0 := by
            by_contra hne
            have htv : treeValueD t₀ k ≠ 0 := by rw [← hprevtree]; exact hne
            have hsome : (lookupLeaf k t₀.leaves).isSome := by
              cases hleaf : lookupLeaf k t₀.leaves with
              | none => exact absurd (by simp [treeValueD, hleaf]) htv
              | some leaf => rfl
            obtain ⟨b, hiw, hble⟩ := hc.initialWriteOfPresent k hk hts hsome
            apply hwm
            rw [writeMatters, if_pos rfl, hiw]
            simp [hble]
          rw [if_neg (fun hne => hne hpz)]
          dsimp only [lookupLog, KeyRel]
      · have hwm : writeMatters iw n k v = true := by rw [writeMatters, if_neg hv]
        rw [if_pos hwm]
        by_cases hpv : (prev (StorageKey.hashedKey k)).getD 0 ≠ v
        · rw [if_pos hpv]
          exact ⟨rfl, .inr ⟨rfl, rfl, rfl⟩⟩
        · rw [if_neg hpv]
          have hpveq : (prev (StorageKey.hashedKey k)).getD 0 = v := not_not.mp hpv
          have htv : treeValueD t₀ k = v := by rw [← hprevtree]; exact hpveq
          cases hleaf : lookupLeaf k t₀.leaves with
          | none =>
            exfalso
            apply hv
            rw [← htv]
            simp [treeValueD, hleaf]
          | some leaf =>
            refine ⟨rfl, leaf, hleaf, ?_⟩
            show leaf.value = v
            rw [← htv]
            simp [treeValueD, hleaf]

/-! ## Claim theorems -/

/-- C1: for every batch number for which a header exists, applying the log
list produced by the optimized loader (`L1BatchWithLogs::new`) to the tree
yields the same root hash, initial-write set, repeated-write set and witness
Merkle paths as applying the log list produced by the naive reference loader
(`L1BatchWithLogs::slow`), under the log store's deduplication contract. -/
theorem loader_new_equiv_slow_after_tree_application
    (storage : Storage) (n : L1BatchNumber) (t₀ : ZkSyncTree)
    (header : L1BatchHeader) (pr : List StorageKey) (ts : SlotMap)
    (iw : StorageKey → Option L1BatchNumber) (prev : StorageKey → Option H256)
    (hH : storage.getL1BatchHeader n = .ok (some header))
    (hP : storage.getProtectiveReads n = .ok pr)
    (hT : storage.getTouchedSlots n = .ok ts)
    (hIW : storage.getL1BatchesForInitialWrites
        (zeroValueHashedKeys (applyProtectiveReads pr (ts, [])).1) = .ok iw)
    (hPrev : storage.getPreviousStorageValues (slowHashedKeys pr ts) n = .ok prev)
    (hnodup : (ts.map Prod.fst).Nodup)
    (hc : DedupContract t₀ pr ts iw prev n) :
    L1BatchWithLogs.new storage n = .ok (some ⟨header, newStorageLogs pr ts iw n⟩) ∧
    L1BatchWithLogs.slow storage n =
      .ok (some ⟨header, slowWriteLogs ts prev (slowReadFold pr prev [])⟩) ∧
    ZkSyncTree.processL1Batch t₀ (newStorageLogs pr ts iw n) =
      ZkSyncTree.processL1Batch t₀ (slowWriteLogs ts prev (slowReadFold pr prev [])) := by
  have hassert : ∀ k ∈ pr, ∀ v, lookupSlot k ts = some v →
      (prev (StorageKey.hashedKey k)).getD 0 = v := fun k hk v hv => by
    rw [hc.previousMatchesTree k (Or.inl hk)]
    exact hc.protectiveReadsUnchanged k hk v hv
  refine ⟨new_eq_ok storage n header pr ts iw hH hP hT hIW,
    slow_eq_ok storage n header pr ts prev hH hP hT hPrev hassert, ?_⟩
  have hsim : LogListSim t₀ (newStorageLogs pr ts iw n)
      (slowWriteLogs ts prev (slowReadFold pr prev [])) :=
    sim_of_keyRel t₀ _ _ (newStorageLogs_sorted pr ts iw n)
      (slowWriteLogs_sorted ts prev _
        (slowReadFold_sorted pr prev [] List.Pairwise.nil))
      (keyRel_of_contract t₀ pr ts iw prev n hnodup hc)
  have hfold := foldl_treeStep_eq_of_sim hsim ⟨t₀, [], [], []⟩
    (newStorageLogs_sorted pr ts iw n) (fun e _ => rfl)
  simp only [ZkSyncTree.processL1Batch]
  rw [hfold]

theorem loader_new_equiv_slow_after_tree_application_witness :
    L1BatchWithLogs.new sampleStorage 1 =
      .ok (some ⟨⟨1, 100⟩, newStorageLogs [5] [] (fun _ => none) 1⟩) ∧
    L1BatchWithLogs.slow sampleStorage 1 =
      .ok (some ⟨⟨1, 100⟩,
        slowWriteLogs [] (fun _ => none) (slowReadFold [5] (fun _ => none) [])⟩) ∧
    ZkSyncTree.processL1Batch ⟨[], 1, 0⟩ (newStorageLogs [5] [] (fun _ => none) 1) =
      ZkSyncTree.processL1Batch ⟨[], 1, 0⟩
        (slowWriteLogs [] (fun _ => none) (slowReadFold [5] (fun _ => none) [])) :=
  loader_new_equiv_slow_after_tree_application sampleStorage 1 ⟨[], 1, 0⟩ ⟨1, 100⟩
    [5] [] (fun _ => none) (fun _ => none) rfl rfl rfl rfl rfl List.Pairwise.nil
    ⟨fun _ _ => rfl, fun _ _ _ hv => Option.noConfusion hv,
      fun _ _ h0 => Option.noConfusion h0, fun _ _ h0 => Option.noConfusion h0⟩

/-- C2: every protective-read key is emitted by the loader as a Read log
entry with zero placeholder value, and never as a Write entry, even when it
also appears among the touched slots. -/
theorem loader_protective_read_always_read
    (storage : Storage) (n : L1BatchNumber) (header : L1BatchHeader)
    (pr : List StorageKey) (ts : SlotMap) (iw : StorageKey → Option L1BatchNumber)
    (hH : storage.getL1BatchHeader n = .ok (some header))
    (hP : storage.getProtectiveReads n = .ok pr)
    (hT : storage.getTouchedSlots n = .ok ts)
    (hIW : storage.getL1BatchesForInitialWrites
        (zeroValueHashedKeys (applyProtectiveReads pr (ts, [])).1) = .ok iw)
    (hnodup : (ts.map Prod.fst).Nodup) (k : StorageKey) (hk : k ∈ pr) :
    L1BatchWithLogs.new storage n = .ok (some ⟨header, newStorageLogs pr ts iw n⟩) ∧
    StorageLog.newReadLog k 0 ∈ newStorageLogs pr ts iw n ∧
    ∀ v, StorageLog.newWriteLog k v ∉ newStorageLogs pr ts iw n := by
  refine ⟨new_eq_ok storage n header pr ts iw hH hP hT hIW, ?_, ?_⟩
  · have hl := newStorageLogs_lookup pr ts iw n k hnodup
    rw [if_pos hk] at hl
    exact (lookupLog_eq_some hl).1
  · intro v hvmem
    have hmem := lookupLog_of_mem (newStorageLogs_sorted pr ts iw n) hvmem
    rw [show (StorageLog.newWriteLog k v).key = k from rfl] at hmem
    have hl := newStorageLogs_lookup pr ts iw n k hnodup
    rw [if_pos hk] at hl
    rw [hl] at hmem
    simp [StorageLog.newReadLog, StorageLog.newWriteLog] at hmem

theorem loader_protective_read_always_read_witness :
    L1BatchWithLogs.new sampleStorageRich 2 =
      .ok (some ⟨⟨2, 100⟩,
        newStorageLogs [5] [(5, 8), (2, 3), (4, 0)] (fun _ => none) 2⟩) ∧
    StorageLog.newReadLog 5 0 ∈
      newStorageLogs [5] [(5, 8), (2, 3), (4, 0)] (fun _ => none) 2 ∧
    StorageLog.newWriteLog 5 8 ∉
      newStorageLogs [5] [(5, 8), (2, 3), (4, 0)] (fun _ => none) 2 := by
  have h := loader_protective_read_always_read sampleStorageRich 2 ⟨2, 100⟩
    [5] [(5, 8), (2, 3), (4, 0)] (fun _ => none) rfl rfl rfl rfl (by decide)
    5 (by decide)
  exact ⟨h.1, h.2.1, h.2.2 8⟩

/-- C3: a touched-slot key with zero final value that is not a protective
read produces no log entry at all when its initial write is unrecorded or
recorded strictly after the current batch; otherwise a Write log entry with
value zero is emitted. -/
theorem loader_zero_value_touched_slot
    (storage : Storage) (n : L1BatchNumber) (header : L1BatchHeader)
    (pr : List StorageKey) (ts : SlotMap) (iw : StorageKey → Option L1BatchNumber)
    (hH : storage.getL1BatchHeader n = .ok (some header))
    (hP : storage.getProtectiveReads n = .ok pr)
    (hT : storage.getTouchedSlots n = .ok ts)
    (hIW : storage.getL1BatchesForInitialWrites
        (zeroValueHashedKeys (applyProtectiveReads pr (ts, [])).1) = .ok iw)
    (hnodup : (ts.map Prod.fst).Nodup) (k : StorageKey)
    (hk0 : lookupSlot k ts = some 0) (hkpr : k ∉ pr) :
    L1BatchWithLogs.new storage n = .ok (some ⟨header, newStorageLogs pr ts iw n⟩) ∧
    ((∀ b, iw (StorageKey.hashedKey k) = some b → n < b) →
      ∀ log ∈ newStorageLogs pr ts iw n, log.key ≠ k) ∧
    (∀ b, iw (StorageKey.hashedKey k) = some b → b ≤ n →
      StorageLog.newWriteLog k 0 ∈ newStorageLogs pr ts iw n) := by
  refine ⟨new_eq_ok storage n header pr ts iw hH hP hT hIW, ?_, ?_⟩
  · intro hspur
    have hl := newStorageLogs_lookup pr ts iw n k hnodup
    rw [if_neg hkpr, hk0] at hl
    dsimp only at hl
    have hwm : writeMatters iw n k 0 = false := by
      rw [writeMatters, if_pos rfl]
      cases hiw : iw (StorageKey.hashedKey k) with
      | none => rfl
      | some b =>
        have := Nat.not_le.mpr (hspur b hiw)
        simp [this]
    rw [hwm] at hl
    simp only [Bool.false_eq_true, if_false] at hl
    exact fun log hmem => lookupLog_eq_none_iff.mp hl log hmem
  · intro b hiw hble
    have hl := newStorageLogs_lookup pr ts iw n k hnodup
    rw [if_neg hkpr, hk0] at hl
    dsimp only at hl
    have hwm : writeMatters iw n k 0 = true := by
      rw [writeMatters, if_pos rfl, hiw]
      simp [hble]
    rw [hwm] at hl
    simp only [if_true] at hl
    exact (lookupLog_eq_some hl).1

theorem loader_zero_value_touched_slot_witness :
    (L1BatchWithLogs.new sampleStorageZeroValues 2 =
      .ok (some ⟨⟨2, 100⟩, newStorageLogs [] [(4, 0), (6, 0)]
        (fun hk => if hk = 6 then some 1 else none) 2⟩)) ∧
    StorageLog.newWriteLog 4 0 ∉ newStorageLogs [] [(4, 0), (6, 0)]
      (fun hk => if hk = 6 then some 1 else none) 2 ∧
    StorageLog.newWriteLog 6 0 ∈ newStorageLogs [] [(4, 0), (6, 0)]
      (fun hk => if hk = 6 then some 1 else none) 2 := by
  have h4 := loader_zero_value_touched_slot sampleStorageZeroValues 2 ⟨2, 100⟩
    [] [(4, 0), (6, 0)] (fun hk => if hk = 6 then some 1 else none)
    rfl rfl rfl rfl (by decide) 4 (by decide) (by decide)
  have h6 := loader_zero_value_touched_slot sampleStorageZeroValues 2 ⟨2, 100⟩
    [] [(4, 0), (6, 0)] (fun hk => if hk = 6 then some 1 else none)
    rfl rfl rfl rfl (by decide) 6 (by decide) (by decide)
  refine ⟨h4.1, ?_, h6.2.2 1 (by decide) (by decide)⟩
  intro hmem
  have := h4.2.1 (by intro b hb; simp [StorageKey.hashedKey] at hb)
    (StorageLog.newWriteLog 4 0) hmem
  exact this rfl

/-- C4: every touched-slot key with a non-zero final value that is not a
protective read produces a Write log entry carrying that value,
unconditionally and for every possible initial-write map. -/
theorem loader_nonzero_touched_slot_always_write
    (storage : Storage) (n : L1BatchNumber) (header : L1BatchHeader)
    (pr : List StorageKey) (ts : SlotMap) (iw : StorageKey → Option L1BatchNumber)
    (hH : storage.getL1BatchHeader n = .ok (some header))
    (hP : storage.getProtectiveReads n = .ok pr)
    (hT : storage.getTouchedSlots n = .ok ts)
    (hIW : storage.getL1BatchesForInitialWrites
        (zeroValueHashedKeys (applyProtectiveReads pr (ts, [])).1) = .ok iw)
    (hnodup : (ts.map Prod.fst).Nodup) (k : StorageKey) (v : H256)
    (hv : lookupSlot k ts = some v) (hvz : v ≠ 0) (hkpr : k ∉ pr) :
    L1BatchWithLogs.new storage n = .ok (some ⟨header, newStorageLogs pr ts iw n⟩) ∧
    StorageLog.newWriteLog k v ∈ newStorageLogs pr ts iw n := by
  refine ⟨new_eq_ok storage n header pr ts iw hH hP hT hIW, ?_⟩
  have hl := newStorageLogs_lookup pr ts iw n k hnodup
  rw [if_neg hkpr, hv] at hl
  dsimp only at hl
  have hwm : writeMatters iw n k v = true := by rw [writeMatters, if_neg hvz]
  rw [hwm] at hl
  simp only [if_true] at hl
  exact (lookupLog_eq_some hl).1

theorem loader_nonzero_touched_slot_always_write_witness :
    L1BatchWithLogs.new sampleStorageRich 2 =
      .ok (some ⟨⟨2, 100⟩,
        newStorageLogs [5] [(5, 8), (2, 3), (4, 0)] (fun _ => none) 2⟩) ∧
    StorageLog.newWriteLog 2 3 ∈
      newStorageLogs [5] [(5, 8), (2, 3), (4, 0)] (fun _ => none) 2 :=
  loader_nonzero_touched_slot_always_write sampleStorageRich 2 ⟨2, 100⟩
    [5] [(5, 8), (2, 3), (4, 0)] (fun _ => none) rfl rfl rfl rfl (by decide)
    2 3 (by decide) (by decide) (by decide)

/-- C5: if a mutating tree-handle operation is cancelled mid-call, so the
handle keeps the state `mem::take` left behind, then every subsequent
operation — `is_empty`, `next_l1_batch_number`, `root_hash`,
`process_l1_batch`, `save` and `revert_logs` — fails with the
inconsistent-state condition instead of operating on an absent tree. -/
theorem asyncTree_poisoned_after_cancelled_call (h : AsyncTree)
    (storageLogs : List StorageLog) (n : L1BatchNumber) :
    ((AsyncTree.memTake h).2).isEmpty = none ∧
    ((AsyncTree.memTake h).2).nextL1BatchNumber = none ∧
    ((AsyncTree.memTake h).2).rootHash = none ∧
    ((AsyncTree.memTake h).2).processL1Batch storageLogs = none ∧
    ((AsyncTree.memTake h).2).save = none ∧
    ((AsyncTree.memTake h).2).revertLogs n = none :=
  ⟨rfl, rfl, rfl, rfl, rfl, rfl⟩

/-- C6: the optimized loader returns `none` exactly when the batch header
does not exist, while any underlying log-store fetch failure (header,
protective reads, touched slots, or initial-write batches) is propagated
as-is rather than being converted to `none`. -/
theorem loader_none_iff_header_missing (storage : Storage) (n : L1BatchNumber) :
    (L1BatchWithLogs.new storage n = .ok none ↔
      storage.getL1BatchHeader n = .ok none) ∧
    (∀ e, storage.getL1BatchHeader n = .error e →
      L1BatchWithLogs.new storage n = .error e) ∧
    (∀ header e, storage.getL1BatchHeader n = .ok (some header) →
      storage.getProtectiveReads n = .error e →
      L1BatchWithLogs.new storage n = .error e) ∧
    (∀ header pr e, storage.getL1BatchHeader n = .ok (some header) →
      storage.getProtectiveReads n = .ok pr →
      storage.getTouchedSlots n = .error e →
      L1BatchWithLogs.new storage n = .error e) ∧
    (∀ header pr ts e, storage.getL1BatchHeader n = .ok (some header) →
      storage.getProtectiveReads n = .ok pr →
      storage.getTouchedSlots n = .ok ts →
      storage.getL1BatchesForInitialWrites
        (zeroValueHashedKeys (applyProtectiveReads pr (ts, [])).1) = .error e →
      L1BatchWithLogs.new storage n = .error e) := by
  refine ⟨⟨?_, ?_⟩, ?_, ?_, ?_, ?_⟩
  · intro hnew
    rw [new_unfold] at hnew
    cases hH : storage.getL1BatchHeader n with
    | error e => rw [hH] at hnew; simp at hnew
    | ok ho =>
      cases ho with
      | none => rfl
      | some header =>
        exfalso
        rw [hH] at hnew
        dsimp only at hnew
        cases hP : storage.getProtectiveReads n with
        | error e => rw [hP] at hnew; simp at hnew
        | ok pr =>
          rw [hP] at hnew
          dsimp only at hnew
          cases hT : storage.getTouchedSlots n with
          | error e => rw [hT] at hnew; simp at hnew
          | ok ts =>
            rw [hT] at hnew
            dsimp only at hnew
            cases hIW : storage.getL1BatchesForInitialWrites
                (zeroValueHashedKeys (applyProtectiveReads pr (ts, [])).1) with
            | error e => rw [hIW] at hnew; simp at hnew
            | ok iw => rw [hIW] at hnew; simp at hnew
  · intro hnone
    rw [new_unfold, hnone]
  · intro e hH
    rw [new_unfold, hH]
  · intro header e hH hP
    rw [new_unfold, hH, hP]
  · intro header pr e hH hP hT
    rw [new_unfold, hH, hP, hT]
  · intro header pr ts e hH hP hT hIW
    rw [new_unfold, hH, hP, hT]
    dsimp only
    rw [hIW]

theorem loader_none_iff_header_missing_witness :
    L1BatchWithLogs.new sampleStorageHeaderMissing 0 = .ok none ∧
    L1BatchWithLogs.new sampleStorageFailingHeader 0 = .error 7 :=
  ⟨(loader_none_iff_header_missing sampleStorageHeaderMissing 0).1.mpr rfl,
    (loader_none_iff_header_missing sampleStorageFailingHeader 0).2.1 7 rfl⟩

/-- C7: the loader's flattened log list is sorted in ascending order of the
storage keys' hashes, and the naive reference loader's list is sorted in the
very same order. -/
theorem loader_output_sorted_by_hashed_key
    (storage : Storage) (n : L1BatchNumber) (header : L1BatchHeader)
    (pr : List StorageKey) (ts : SlotMap) (iw : StorageKey → Option L1BatchNumber)
    (prev : StorageKey → Option H256)
    (hH : storage.getL1BatchHeader n = .ok (some header))
    (hP : storage.getProtectiveReads n = .ok pr)
    (hT : storage.getTouchedSlots n = .ok ts)
    (hIW : storage.getL1BatchesForInitialWrites
        (zeroValueHashedKeys (applyProtectiveReads pr (ts, [])).1) = .ok iw)
    (hPrev : storage.getPreviousStorageValues (slowHashedKeys pr ts) n = .ok prev)
    (hassert : ∀ k ∈ pr, ∀ v, lookupSlot k ts = some v →
      (prev (StorageKey.hashedKey k)).getD 0 = v) :
    L1BatchWithLogs.new storage n = .ok (some ⟨header, newStorageLogs pr ts iw n⟩) ∧
    (newStorageLogs pr ts iw n).Pairwise
      (fun a b => StorageKey.hashedKey a.key < StorageKey.hashedKey b.key) ∧
    L1BatchWithLogs.slow storage n =
      .ok (some ⟨header, slowWriteLogs ts prev (slowReadFold pr prev [])⟩) ∧
    (slowWriteLogs ts prev (slowReadFold pr prev [])).Pairwise
      (fun a b => StorageKey.hashedKey a.key < StorageKey.hashedKey b.key) :=
  ⟨new_eq_ok storage n header pr ts iw hH hP hT hIW,
    newStorageLogs_sorted pr ts iw n,
    slow_eq_ok storage n header pr ts prev hH hP hT hPrev hassert,
    slowWriteLogs_sorted ts prev _ (slowReadFold_sorted pr prev [] List.Pairwise.nil)⟩

theorem loader_output_sorted_by_hashed_key_witness :
    L1BatchWithLogs.new sampleStorageRich 2 =
      .ok (some ⟨⟨2, 100⟩,
        newStorageLogs [5] [(5, 8), (2, 3), (4, 0)] (fun _ => none) 2⟩) ∧
    (newStorageLogs [5] [(5, 8), (2, 3), (4, 0)] (fun _ => none) 2).Pairwise
      (fun a b => StorageKey.hashedKey a.key < StorageKey.hashedKey b.key) ∧
    L1BatchWithLogs.slow sampleStorageRich 2 =
      .ok (some ⟨⟨2, 100⟩,
        slowWriteLogs [(5, 8), (2, 3), (4, 0)] (fun k => if k = 5 then some 8 else none)
          (slowReadFold [5] (fun k => if k = 5 then some 8 else none) [])⟩) ∧
    (slowWriteLogs [(5, 8), (2, 3), (4, 0)] (fun k => if k = 5 then some 8 else none)
        (slowReadFold [5] (fun k => if k = 5 then some 8 else none) [])).Pairwise
      (fun a b => StorageKey.hashedKey a.key < StorageKey.hashedKey b.key) :=
  loader_output_sorted_by_hashed_key sampleStorageRich 2 ⟨2, 100⟩
    [5] [(5, 8), (2, 3), (4, 0)] (fun _ => none)
    (fun k => if k = 5 then some 8 else none) rfl rfl rfl rfl rfl
    (by intro k hk v hv; fin_cases hk; simp_all [lookupSlot, StorageKey.hashedKey])

/-- C8: after `process_l1_batch` or `save` completes without cancellation,
the handle owns the tree again, so the call succeeds and every subsequent
accessor (`is_empty`, `next_l1_batch_number`, `root_hash`) succeeds without
the inconsistent-state failure. -/
theorem asyncTree_restored_after_completed_call (h : AsyncTree) (t : ZkSyncTree)
    (storageLogs : List StorageLog) (hsome : h.inner = some t) :
    (∃ h' md, h.processL1Batch storageLogs = some (h', md) ∧
      h'.inner.isSome = true ∧ h'.isEmpty.isSome = true ∧
      h'.nextL1BatchNumber.isSome = true ∧ h'.rootHash.isSome = true) ∧
    (∃ h', h.save = some h' ∧ h'.inner.isSome = true ∧ h'.isEmpty.isSome = true ∧
      h'.nextL1BatchNumber.isSome = true ∧ h'.rootHash.isSome = true) := by
  obtain ⟨inner⟩ := h
  dsimp only at hsome
  subst hsome
  exact ⟨⟨⟨some (t.processL1Batch storageLogs).1⟩, (t.processL1Batch storageLogs).2,
      rfl, rfl, rfl, rfl, rfl⟩,
    ⟨⟨some t.save⟩, rfl, rfl, rfl, rfl, rfl⟩⟩

theorem asyncTree_restored_after_completed_call_witness :
    (AsyncTree.processL1Batch ⟨some sampleTree⟩ []).isSome = true ∧
    (AsyncTree.save ⟨some sampleTree⟩).isSome = true := by
  obtain ⟨⟨h₁, md, hp, _⟩, ⟨h₂, hs, _⟩⟩ :=
    asyncTree_restored_after_completed_call ⟨some sampleTree⟩ sampleTree [] rfl
  rw [hp, hs]
  exact ⟨rfl, rfl⟩

/-- C9: for every mode and next-batch number, the health snapshot has status
Ready and carries the mode and next expected batch number as its diagnostic
payload; no other status is ever produced. -/
theorem health_snapshot_always_ready (mode : MerkleTreeMode) (n : L1BatchNumber) :
    (TreeHealthCheckDetails.toHealth ⟨mode, n⟩).status = .Ready ∧
    (TreeHealthCheckDetails.toHealth ⟨mode, n⟩).details = some ⟨mode, n⟩ :=
  ⟨rfl, rfl⟩

/-- C10: on an idle iteration, `Delayer::wait` first publishes the pair
(next batch number, root hash) read from the tree handle to the registered
observer, and then suspends with a plain timed sleep of the configured
interval. -/
theorem delayer_wait_publishes_then_sleeps (d : Delayer) (h : AsyncTree)
    (t : ZkSyncTree) (hsome : h.inner = some t) :
    d.wait h = some [WaitEffect.notify t.nextL1BatchNumber t.rootHash,
      WaitEffect.sleep d.delayInterval] := by
  obtain ⟨inner⟩ := h
  dsimp only at hsome
  subst hsome
  rfl

theorem delayer_wait_publishes_then_sleeps_witness :
    Delayer.wait ⟨250⟩ ⟨some sampleTree⟩ =
      some [WaitEffect.notify 1 [(5, ⟨8, 1⟩)], WaitEffect.sleep 250] :=
  delayer_wait_publishes_then_sleeps ⟨250⟩ ⟨some sampleTree⟩ sampleTree rfl
